import Mathlib

/-!
Verification of the supernova light-curve simulation engine
(`sn_simu_wrapper/sn_simu.py`, `sn_simulator/sn_cosmo.py`,
`sn_simulator/sn_fast.py`).

The Python code is shallowly embedded: machine floats are modelled as exact
rationals (ℚ), Python ints as ℤ/ℕ, strings as Lean `String` (a list of
characters), Python dicts as insertion-ordered association lists, and
fallible operations (dict `KeyError`) as `Option`.  External collaborators
(sncosmo spectral integration, the LCfast interpolation kernel, hdf5 I/O)
are abstracted as parameters; everything the claims quantify over is
translated from the source.
-/

/-- Values stored in a light-curve metadata dictionary: Python ints,
floats (modelled as ℚ) and strings. -/
inductive MetaVal where
  | i (n : ℤ)
  | q (x : ℚ)
  | s (t : String)
deriving DecidableEq

/-!
Decimal rendering.  Python's `'{}'.format` renders the numeric index
components to decimal strings; the model renders ℤ with `intChars`
(digits, possibly with a leading minus sign) and ℚ with `ratChars`
(canonical numerator and denominator separated by a slash).  Both are
injective and never produce an underscore, which is all the storage-index
uniqueness argument uses; Python's own float/int rendering is likewise
injective on values and underscore-free.  The digit expansion is written
with structural fuel so that it evaluates by reduction.
-/

/-- Character for one decimal digit. -/
def digitChar10 : ℕ → Char
  | 0 => '0'
  | 1 => '1'
  | 2 => '2'
  | 3 => '3'
  | 4 => '4'
  | 5 => '5'
  | 6 => '6'
  | 7 => '7'
  | 8 => '8'
  | 9 => '9'
  | _ => '?'

/-- Decimal expansion of a natural number, most significant digit first;
the first argument is structural fuel. -/
def natCharsAux : ℕ → ℕ → List Char
  | 0, _ => []
  | _ + 1, 0 => []
  | f + 1, n + 1 => natCharsAux f ((n + 1) / 10) ++ [digitChar10 ((n + 1) % 10)]

/-- Decimal rendering of a natural number. -/
def natChars (n : ℕ) : List Char := if n = 0 then ['0'] else natCharsAux n n

/-- Decimal rendering of an integer (Python `repr` of an int). -/
def intChars (n : ℤ) : List Char :=
  if n < 0 then '-' :: natChars (-n).toNat else natChars n.toNat

/-- Injective rendering of a rational: canonical numerator, a slash, and
canonical denominator. -/
def ratChars (x : ℚ) : List Char := intChars x.num ++ '/' :: natChars x.den

/-!
IndexAssigner (`sn_simu.py`, `SNSimulation.setIndex`, lines 491-499, and the
epsilon encoding of `writeLC`, lines 447-450).
-/

/-- Storage-index string: the underscore-joined components, exactly as in
`'{}_{}_{}_{}_{}_{}_{}'.format(healpixID, x1, color, z, daymax, season,
epsilon)`. -/
def setIndex (healpixID : ℤ) (x1 color z daymax : ℚ) (season epsilon : ℤ) : String :=
  ⟨intChars healpixID ++ '_' ::
    (ratChars x1 ++ '_' ::
      (ratChars color ++ '_' ::
        (ratChars z ++ '_' ::
          (ratChars daymax ++ '_' ::
            (intChars season ++ '_' :: intChars epsilon)))))⟩

/-- Truncation toward zero, the behaviour of Python `int`/`np.int` on a
real value. -/
def trunc (q : ℚ) : ℤ := if 0 ≤ q then ⌊q⌋ else ⌈q⌉

/-- Epsilon encoding of `writeLC`:
`np.int(1000*1.e8*eps_x0) + np.int(100*1.e8*eps_x1) + np.int(10*1.e8*eps_color)
 + np.int(1*1.e8*eps_daymax)`. -/
def epsilonCode (ex0 ex1 ecol eday : ℚ) : ℤ :=
  trunc (1000 * 10 ^ 8 * ex0) + trunc (100 * 10 ^ 8 * ex1) +
    trunc (10 * 10 ^ 8 * ecol) + trunc (1 * 10 ^ 8 * eday)

/-- Round half to even on a rational, the behaviour of `np.round` at
integer precision. -/
def roundHalfEven (q : ℚ) : ℤ :=
  if q - ⌊q⌋ < 1 / 2 then ⌊q⌋
  else if 1 / 2 < q - ⌊q⌋ then ⌊q⌋ + 1
  else if ⌊q⌋ % 2 = 0 then ⌊q⌋ else ⌊q⌋ + 1

/-- Three-decimal rounding, the behaviour of `np.round(x, 3)`. -/
def round3 (q : ℚ) : ℚ := (roundHalfEven (1000 * q) : ℚ) / 1000

/-- One generation parameter set, as consumed by `writeLC` through the
light-curve metadata (identity, redshift, stretch, color, peak time and the
four epsilon perturbations). -/
structure GenParams where
  healpixID : ℤ
  x1 : ℚ
  color : ℚ
  z : ℚ
  daymax : ℚ
  epsilon_x0 : ℚ
  epsilon_x1 : ℚ
  epsilon_color : ℚ
  epsilon_daymax : ℚ
deriving DecidableEq

/-- The storage index `writeLC` computes for a parameter set in a given
season (lines 447-457): pixel, stretch, color, redshift and peak time
rounded to three decimals, season, and the epsilon code. -/
def storageIndex (p : GenParams) (season : ℤ) : String :=
  setIndex p.healpixID p.x1 p.color (round3 p.z) (round3 p.daymax) season
    (epsilonCode p.epsilon_x0 p.epsilon_x1 p.epsilon_color p.epsilon_daymax)

/-!
SeasonBatchScheduler (`sn_simu.py`, `simuSeason`, lines 377-392).
`batch = np.linspace(0, nlc, npp+1, dtype='int')` produces the boundary
points `⌊i*nlc/npp⌋`; shard `i` processes `gen_params[batch[i]:batch[i+1]]`.
-/

/-- Shard boundary point number `i` for a parameter grid of size `total`
split over `npp` workers. -/
def batchBound (total npp i : ℕ) : ℕ := i * total / npp

/-!
Season filtering (`sn_simu.py`, `SNSimulation.run`, lines 274-284): for each
season, select that season's observations, drop visits whose filter name ends
in the letter u, and invoke `simuSeason` only when at least 5 visits remain.
-/

/-- One survey-visit record with the fields the season loop and the
Physics backend read: season, filter name, observation time. -/
structure ObsRec where
  season : ℤ
  filt : String
  mjd : ℚ
deriving DecidableEq

/-- Selection of one season's usable visits: `obs[obs['season'] == seas]`
restricted to visits whose filter name's last character is not u
(`val[-1] != 'u'`). -/
def seasonSel (obs : List ObsRec) (seas : ℤ) : List ObsRec :=
  (obs.filter (fun o => o.season = seas)).filter
    (fun o => o.filt.data.getLast? ≠ some 'u')

/-- The season loop of `run`: each season whose usable-visit count reaches 5
contributes one `simuSeason` invocation (season paired with the visits it
processes); any other season contributes nothing. -/
def runLoop (obs : List ObsRec) (seasons : List ℤ) : List (ℤ × List ObsRec) :=
  seasons.foldl
    (fun acc seas =>
      let sel := seasonSel obs seas
      if 5 ≤ sel.length then acc ++ [(seas, sel)] else acc)
    []

/-!
The incremental writer (`sn_simu.py`, `writeLC` lines 428-489 and `dump`
lines 546-562).  Python dicts are modelled as insertion-ordered association
lists; a dict lookup that would raise `KeyError` is `none`.
-/

/-- Lookup in an association list, Python dict indexing. -/
def lookupKey {α : Type} (k : String) : List (String × α) → Option α
  | [] => none
  | p :: rest => if p.1 = k then some p.2 else lookupKey k rest

/-- Python `dict.update`: existing keys keep their position and take the
new value, unseen keys of the update are appended in order. -/
def dictUpdate (d e : List (String × MetaVal)) : List (String × MetaVal) :=
  d.map (fun p =>
    match lookupKey p.1 e with
    | some v => (p.1, v)
    | none => p) ++
  e.filter (fun p => (lookupKey p.1 d).isNone)

/-- A light-curve table: per-epoch rows and a metadata dictionary. -/
structure LCTable (ρ : Type) where
  rows : List ρ
  meta : List (String × MetaVal)

/-- The bookkeeping names of `writeLC`:
`['SNID', 'index_hdf5', 'season', 'fieldname', 'fieldid', 'n_lc_points', 'area']`. -/
def stdNames : List String :=
  ["SNID", "index_hdf5", "season", "fieldname", "fieldid", "n_lc_points", "area"]

/-- The bookkeeping dictionary of `writeLC` (fieldname and fieldid are the
constants set in `run`). -/
def stdMetadict (SNID : ℤ) (index_hdf5 : String) (season : ℤ) (n_lc_points : ℕ)
    (area : ℚ) : List (String × MetaVal) :=
  [("SNID", .i SNID), ("index_hdf5", .s index_hdf5), ("season", .i season),
   ("fieldname", .s "unknown"), ("fieldid", .i 0),
   ("n_lc_points", .i n_lc_points), ("area", .q area)]

/-- Read a float-valued metadata entry. -/
def metaQ (m : List (String × MetaVal)) (k : String) : Option ℚ :=
  match lookupKey k m with
  | some (.q x) => some x
  | _ => none

/-- Read an int-valued metadata entry. -/
def metaZ (m : List (String × MetaVal)) (k : String) : Option ℤ :=
  match lookupKey k m with
  | some (.i n) => some n
  | _ => none

/-- The storage index `writeLC` computes from a table's metadata
(lines 447-457). -/
def tableIndex (m : List (String × MetaVal)) (season : ℤ) : Option String :=
  match metaZ m "healpixID", metaQ m "x1", metaQ m "color", metaQ m "z",
      metaQ m "daymax", metaQ m "epsilon_x0", metaQ m "epsilon_x1",
      metaQ m "epsilon_color", metaQ m "epsilon_daymax" with
  | some pix, some x1, some col, some z, some dm,
      some e0, some e1, some e2, some e3 =>
    some (setIndex pix x1 col (round3 z) (round3 dm) season
      (epsilonCode e0 e1 e2 e3))
  | _, _, _, _, _, _, _, _, _ => none

/-- First-table branch of the accumulator update: every key of the
metadata dict starts a fresh singleton list. -/
def metaAccInit (md : List (String × MetaVal)) : List (String × List MetaVal) :=
  md.map (fun p => (p.1, [p.2]))

/-- Fold shared by the accumulator updates: walk the incoming dict and
push each value onto the accumulator entry of the same key (`KeyError`,
hence `none`, when the key is absent). -/
def accExtend {β : Type} (push : List MetaVal → β → List MetaVal)
    (acc : List (String × List MetaVal)) (md : List (String × β)) :
    Option (List (String × List MetaVal)) :=
  md.foldl
    (fun oa p => oa.bind (fun a =>
      if (lookupKey p.1 a).isSome then
        some (a.map (fun q => if q.1 = p.1 then (q.1, push q.2 p.2) else q))
      else none))
    (some acc)

/-- Later-table branch of `writeLC`: `meta_lc[key].extend([metadict[key]])`. -/
def metaAccExtend (acc : List (String × List MetaVal))
    (md : List (String × MetaVal)) : Option (List (String × List MetaVal)) :=
  accExtend (fun l v => l ++ [v]) acc md

/-- Worker-side writer state: the named entries appended to the
light-curve artifact, and the metadata accumulator `meta_lc`. -/
structure WState (ρ : Type) where
  lcEntries : List (String × LCTable ρ)
  meta : List (String × List MetaVal)

/-- One `writeLC` call: compute the storage index, append the table to the
light-curve artifact under `'lc_{}'.format(index_hdf5)`, and extend the
metadata accumulator with the bookkeeping fields updated by the table's
own metadata. -/
def writeLCStep {ρ : Type} (area : ℚ) (SNID : ℤ) (lc : LCTable ρ) (season : ℤ)
    (st : WState ρ) : Option (WState ρ) :=
  match tableIndex lc.meta season with
  | none => none
  | some idx =>
    let metadict := dictUpdate (stdMetadict SNID idx season lc.rows.length area) lc.meta
    (if st.meta = [] then some (metaAccInit metadict)
     else metaAccExtend st.meta metadict).map
      (fun meta2 => { lcEntries := st.lcEntries ++ [("lc_" ++ idx, lc)], meta := meta2 })

/-- The `dump` loop: for each table, increment the shard counter and call
`writeLC` with the incremented value.  Returns the final counter, the final
writer state, and the list of SNID values assigned to the emitted tables. -/
def dump {ρ : Type} (area : ℚ) (season : ℤ) :
    ℤ → WState ρ → List (LCTable ρ) → Option (ℤ × WState ρ × List ℤ)
  | snid, st, [] => some (snid, st, [])
  | snid, st, lc :: rest =>
    match writeLCStep area (snid + 1) lc season st with
    | none => none
    | some st2 =>
      match dump area season (snid + 1) st2 rest with
      | none => none
      | some (fin, stf, tr) => some (fin, stf, (snid + 1) :: tr)

/-- The artifact entries `dump` would write for a table list: one entry per
table, keyed by the table's storage index. -/
def entriesOf {ρ : Type} (season : ℤ) : List (LCTable ρ) → Option (List (String × LCTable ρ))
  | [] => some []
  | lc :: rest =>
    match tableIndex lc.meta season with
    | none => none
    | some idx =>
      match entriesOf season rest with
      | none => none
      | some es => some (("lc_" ++ idx, lc) :: es)

/-- Key list of the metadata dict built by `writeLC`: bookkeeping names
first, then the table's own metadata keys that are not bookkeeping names. -/
def accKeys (ms : List String) : List String :=
  stdNames ++ ms.filter (fun k => decide (¬ k ∈ stdNames))

/-- Effect of one accumulator pass on one entry: push the incoming value
for this entry's key, if any. -/
def pushEntry {β : Type} (push : List MetaVal → β → List MetaVal)
    (md : List (String × β)) (p : String × List MetaVal) : String × List MetaVal :=
  match lookupKey p.1 md with
  | some v => (p.1, push p.2 v)
  | none => p

/-!
Fan-in metadata merge (`sn_simu.py`, `simuSeason`, lines 395-409).
Each worker posts `{j: meta_lc}` to the result queue; the parent folds
`resultdict.update(result_queue.get())` over the arrival order, then merges
`resultdict[j]` for `j = 0 .. npp-1` into the season store.
-/

/-- Parent-side queue drain: repeated `resultdict.update(...)` over the
messages in arrival order.  The resulting mapping sends a worker index to
that worker's posted metadata. -/
def buildResultDict (msgs : List (ℕ × List (String × List MetaVal))) :
    ℕ → Option (List (String × List MetaVal)) :=
  msgs.foldl (fun d m => fun j => if j = m.1 then some m.2 else d j) (fun _ => none)

/-- One merge step: adopt the worker's dict when the store is empty
(`if not self.sn_meta[iproc]`), else extend each key's list
(`self.sn_meta[iproc][key] += metadict[key]`). -/
def mergeMeta (snMeta md : List (String × List MetaVal)) :
    Option (List (String × List MetaVal)) :=
  if snMeta = [] then some md
  else accExtend (fun l vs => l ++ vs) snMeta md

/-- The merge loop over worker indices 0..K-1, starting from the empty
season store. -/
def mergeAll (d : ℕ → Option (List (String × List MetaVal))) (K : ℕ) :
    Option (List (String × List MetaVal)) :=
  (List.range K).foldl
    (fun oa j => oa.bind (fun a => (d j).bind (fun md => mergeMeta a md)))
    (some [])

/-!
Physics backend (`sn_simulator/sn_cosmo.py`, `SN.__call__`, lines 183-405,
with `nosim` lines 428-454 and `metadata` lines 456-492).  The spectral
integration (sncosmo model fluxes, band throughputs) is abstracted as a
function from an observation to its integrated flux; the photometric
error chain (SNR, gamma tables) lives in external library calls and is
not part of the claims.
-/

/-- The per-object quantities `metadata` reads from the wrapped SN object
and the pixel information. -/
structure CosmoParams where
  SNID : ℤ
  RA : ℚ
  Dec : ℚ
  X0 : ℚ
  epsilon_x0 : ℚ
  x1 : ℚ
  epsilon_x1 : ℚ
  color : ℚ
  epsilon_color : ℚ
  daymax : ℚ
  epsilon_daymax : ℚ
  z : ℚ
  area : ℚ
  healpixID : ℤ
  pixRA : ℚ
  pixDec : ℚ
  season : ℤ
  dL : ℚ

/-- The metadata dict of `SN.metadata`: `dict(zip(self.names_meta, val_meta))`. -/
def cosmoMetadata (p : CosmoParams) (ptime : ℚ) (status : ℤ) : List (String × MetaVal) :=
  [("SNID", .i p.SNID), ("RA", .q p.RA), ("Dec", .q p.Dec),
   ("x0", .q p.X0), ("epsilon_x0", .q p.epsilon_x0),
   ("x1", .q p.x1), ("epsilon_x1", .q p.epsilon_x1),
   ("color", .q p.color), ("epsilon_color", .q p.epsilon_color),
   ("daymax", .q p.daymax), ("epsilon_daymax", .q p.epsilon_daymax),
   ("z", .q p.z), ("survey_area", .q p.area),
   ("healpixID", .i p.healpixID), ("pixRA", .q p.pixRA), ("pixDec", .q p.pixDec),
   ("season", .i p.season), ("dL", .q p.dL), ("ptime", .q ptime), ("status", .i status)]

/-- One row of the photometric table; the claims only constrain the
integrated-flux column. -/
structure CosmoRow where
  flux : ℚ
deriving DecidableEq

/-- The empty table of `SN.nosim`: metadata only, no rows. -/
def nosim (p : CosmoParams) (ptime : ℚ) (status : ℤ) : LCTable CosmoRow :=
  { rows := [], meta := cosmoMetadata p ptime status }

/-- Result of one Physics-backend call; `nameError` is the branch that
would evaluate the undefined name `metadata` (line 258). -/
inductive CosmoResult where
  | tables (ts : List (LCTable CosmoRow))
  | nameError

/-- The flux clamp of line 292: `int_fluxes[int_fluxes < 0.] = 1.e-5`.
Only strictly negative fluxes are replaced. -/
def clampFlux (f : ℚ) : ℚ := if f < 0 then 1 / 100000 else f

/-- Ascending-time order on observations, for `obs.sort(order=self.mjdCol)`. -/
def mjdLe (a b : ObsRec) : Prop := a.mjd ≤ b.mjd

instance : DecidableRel mjdLe := fun a b => inferInstanceAs (Decidable (a.mjd ≤ b.mjd))

/-- `SN.__call__` on the phase-selected observations: build the per-epoch
frame, return a metadata-only status -1 table when it is empty, otherwise
integrate fluxes per epoch (in ascending time order), clamp negatives, and
return one status 1 table. -/
def cosmoCall (fluxOf : ObsRec → ℚ) (p : CosmoParams) (ptime : ℚ)
    (cutObs : List ObsRec) : CosmoResult :=
  let lcdf := cutObs.map (fun o => o.filt)
  if lcdf.length = 0 then .tables [nosim p ptime (-1)]
  else if cutObs.length = 0 then .nameError
  else
    let sorted := cutObs.insertionSort mjdLe
    let intFluxes := sorted.map fluxOf
    let rows := (intFluxes.map clampFlux).map (fun f => ({ flux := f } : CosmoRow))
    if rows.length = 0 then .tables [nosim p ptime (-1)]
    else .tables [{ rows := rows, meta := cosmoMetadata p ptime 1 }]

/-!
FastTable backend (`sn_simulator/sn_fast.py`).  `SN.__call__` hands the
whole parameter shard to the external `LCfast` kernel and groups the
combined result with `SN.transform` (lines 99-122); the model takes the
combined result rows as input.
-/

/-- One row of the combined LCfast result; the grouping only reads the
redshift and peak-time columns. -/
structure FastRow where
  z : ℚ
  daymax : ℚ
  flux : ℚ
deriving DecidableEq

/-- The call-shared metadata assembled in `SN.__init__` (premeta: x1,
color, x0, the four epsilons) and completed in `SN.__call__` (position and
pixel fields, dL). -/
structure Premeta where
  x1 : ℚ
  color : ℚ
  x0 : ℚ
  epsilon_x0 : ℚ
  epsilon_x1 : ℚ
  epsilon_color : ℚ
  epsilon_daymax : ℚ
  RA : ℚ
  Dec : ℚ
  pixRA : ℚ
  pixDec : ℚ
  healpixID : ℤ
  dL : ℚ
deriving DecidableEq

/-- The premeta dict in its insertion order. -/
def premetaPairs (pm : Premeta) : List (String × MetaVal) :=
  [("x1", .q pm.x1), ("color", .q pm.color), ("x0", .q pm.x0),
   ("epsilon_x0", .q pm.epsilon_x0), ("epsilon_x1", .q pm.epsilon_x1),
   ("epsilon_color", .q pm.epsilon_color), ("epsilon_daymax", .q pm.epsilon_daymax),
   ("RA", .q pm.RA), ("Dec", .q pm.Dec), ("pixRA", .q pm.pixRA),
   ("pixDec", .q pm.pixDec), ("healpixID", .i pm.healpixID), ("dL", .q pm.dL)]

/-- The pandas grouping key of `transform`: `tab.groupby(['z', 'daymax'])`. -/
def fastKey (r : FastRow) : ℚ × ℚ := (r.z, r.daymax)

/-- Lexicographic order on grouping keys (pandas enumerates groups in
sorted key order). -/
def pairLe (a b : ℚ × ℚ) : Prop := a.1 < b.1 ∨ (a.1 = b.1 ∧ a.2 ≤ b.2)

instance : DecidableRel pairLe :=
  fun a b => inferInstanceAs (Decidable (a.1 < b.1 ∨ (a.1 = b.1 ∧ a.2 ≤ b.2)))

/-- The distinct (z, daymax) pairs of the combined result, in group order. -/
def fastGroupKeys (rows : List FastRow) : List (ℚ × ℚ) :=
  ((rows.map fastKey).dedup).insertionSort pairLe

/-- Metadata of one grouped table:
`dict(zip(['z','daymax'], name))` updated with the premeta dict. -/
def fastMetaOf (key : ℚ × ℚ) (pm : Premeta) : List (String × MetaVal) :=
  dictUpdate [("z", .q key.1), ("daymax", .q key.2)] (premetaPairs pm)

/-- `SN.transform`: one astropy table per distinct (z, daymax) group, each
carrying the group's rows and the group key merged with the premeta. -/
def fastTransform (rows : List FastRow) (pm : Premeta) : List (LCTable FastRow) :=
  (fastGroupKeys rows).map (fun key =>
    { rows := rows.filter (fun r => fastKey r = key), meta := fastMetaOf key pm })

/-!
Concrete inputs used by the claim counterexamples and witnesses.
-/

/-- Two parameter sets equal except for the epsilon perturbations: the
first perturbs x0 by 10^-11, the second perturbs daymax by 10^-8. -/
def gEps1 : GenParams := ⟨1, 0, 0, 1/2, 0, 1/10^11, 0, 0, 0⟩

def gEps2 : GenParams := ⟨1, 0, 0, 1/2, 0, 0, 0, 0, 1/10^8⟩

def gW1 : GenParams := ⟨1, 0, 0, 0, 0, 0, 0, 0, 0⟩

def gW2 : GenParams := ⟨2, 0, 0, 0, 0, 0, 0, 0, 0⟩

/-- Metadata shared by the example tables (the keys a Physics-variant
table provides, including the status field). -/
def lcMetaEx : List (String × MetaVal) :=
  [("healpixID", .i 1), ("x1", .q 0), ("color", .q 0), ("z", .q 1),
   ("daymax", .q 2), ("epsilon_x0", .q 0), ("epsilon_x1", .q 0),
   ("epsilon_color", .q 0), ("epsilon_daymax", .q 0), ("status", .i (-1))]

/-- An empty (status -1 style) example table. -/
def lcExA : LCTable Unit := ⟨[], lcMetaEx⟩

/-- A two-row example table. -/
def lcExB : LCTable Unit := ⟨[(), ()], lcMetaEx⟩

/-- Two example worker results sharing one key set. -/
def wMetaA : List (String × List MetaVal) := [("SNID", [.i 11]), ("z", [.q 1])]

def wMetaB : List (String × List MetaVal) := [("SNID", [.i 101]), ("z", [.q 2])]

/-- The example worker-result mapping. -/
def wr : ℕ → List (String × List MetaVal) := fun j => if j = 0 then wMetaA else wMetaB

/-- The premeta used for concrete FastTable statements. -/
def pmEx : Premeta := ⟨0, 0, -1, 0, 0, 0, 0, 0, 0, 0, 0, 1, -1⟩

/-- A season with five visits, only four of which survive the u-band
filter. -/
def obsC6 : List ObsRec :=
  [⟨1, "LSST::g", 1⟩, ⟨1, "LSST::r", 2⟩, ⟨1, "LSST::i", 3⟩,
   ⟨1, "LSST::z", 4⟩, ⟨1, "LSST::u", 5⟩]

/-- A single observation epoch. -/
def obsC7 : ObsRec := ⟨1, "LSST::g", 10⟩

/-- Object parameters for the concrete Physics-variant statements. -/
def pC7 : CosmoParams := ⟨0, 0, 0, 0, 0, 0, 0, 0, 0, 0, 0, 0, 0, 0, 0, 0, 1, 0⟩

/-- The key list of the example tables' metadata. -/
def msEx : List String :=
  ["healpixID", "x1", "color", "z", "daymax", "epsilon_x0", "epsilon_x1",
   "epsilon_color", "epsilon_daymax", "status"]

theorem natCharsAux_zero (f : ℕ) : natCharsAux f 0 = [] := by
  cases f <;> rfl

theorem natCharsAux_eq_digits :
    ∀ (f n : ℕ), 0 < n → n ≤ f →
      natCharsAux f n = ((Nat.digits 10 n).reverse).map digitChar10 := by
  intro f
  induction f with
  | zero => intro n hn hf; omega
  | succ f ih =>
    intro n hn hf
    match n, hn with
    | m + 1, _ =>
      rw [natCharsAux]
      rw [Nat.digits_def' (by norm_num : 1 < 10) (Nat.succ_pos m)]
      rw [List.reverse_cons, List.map_append]
      by_cases h0 : (m + 1) / 10 = 0
      · rw [h0, natCharsAux_zero]
        simp
      · rw [ih ((m + 1) / 10) (Nat.pos_of_ne_zero h0)
          (by
            have : (m + 1) / 10 < m + 1 := Nat.div_lt_self (Nat.succ_pos m) (by norm_num)
            omega)]
        simp

theorem natChars_eq_digits {n : ℕ} (hn : n ≠ 0) :
    natChars n = ((Nat.digits 10 n).reverse).map digitChar10 := by
  unfold natChars
  rw [if_neg hn]
  exact natCharsAux_eq_digits n n (Nat.pos_of_ne_zero hn) le_rfl

theorem digitChar10_inj {a b : ℕ} (ha : a < 10) (hb : b < 10)
    (h : digitChar10 a = digitChar10 b) : a = b := by
  interval_cases a <;> interval_cases b <;> revert h <;> decide

theorem digitChar10_not_special {a : ℕ} (ha : a < 10) :
    digitChar10 a ≠ '-' ∧ digitChar10 a ≠ '_' ∧ digitChar10 a ≠ '/' := by
  interval_cases a <;> exact ⟨by decide, by decide, by decide⟩

theorem mem_natChars_digit {c : Char} {n : ℕ} (h : c ∈ natChars n) :
    ∃ d, d < 10 ∧ c = digitChar10 d := by
  by_cases hn : n = 0
  · subst hn
    have h' : c = '0' := by simpa [natChars] using h
    exact ⟨0, by norm_num, h'⟩
  · rw [natChars_eq_digits hn] at h
    obtain ⟨d, hd, hc⟩ := List.mem_map.mp h
    refine ⟨d, ?_, hc.symm⟩
    exact Nat.digits_lt_base (by norm_num) (List.mem_reverse.mp hd)

theorem underscore_not_mem_natChars {n : ℕ} : '_' ∉ natChars n := by
  intro h
  obtain ⟨d, hd, hc⟩ := mem_natChars_digit h
  exact (digitChar10_not_special hd).2.1 hc.symm

theorem slash_not_mem_natChars {n : ℕ} : '/' ∉ natChars n := by
  intro h
  obtain ⟨d, hd, hc⟩ := mem_natChars_digit h
  exact (digitChar10_not_special hd).2.2 hc.symm

theorem dash_not_mem_natChars {n : ℕ} : '-' ∉ natChars n := by
  intro h
  obtain ⟨d, hd, hc⟩ := mem_natChars_digit h
  exact (digitChar10_not_special hd).1 hc.symm

theorem map_digitChar10_inj :
    ∀ (l₁ l₂ : List ℕ), (∀ x ∈ l₁, x < 10) → (∀ x ∈ l₂, x < 10) →
      l₁.map digitChar10 = l₂.map digitChar10 → l₁ = l₂ := by
  intro l₁
  induction l₁ with
  | nil =>
    intro l₂ _ _ h
    cases l₂ with
    | nil => rfl
    | cons b t => simp at h
  | cons a t ih =>
    intro l₂ h1 h2 h
    cases l₂ with
    | nil => simp at h
    | cons b u =>
      simp only [List.map_cons, List.cons.injEq] at h
      have hab : a = b :=
        digitChar10_inj (h1 a (List.mem_cons_self a t)) (h2 b (List.mem_cons_self b u)) h.1
      have htu : t = u :=
        ih u (fun x hx => h1 x (List.mem_cons_of_mem a hx))
          (fun x hx => h2 x (List.mem_cons_of_mem b hx)) h.2
      rw [hab, htu]

theorem natChars_inj {m n : ℕ} (h : natChars m = natChars n) : m = n := by
  have digbound : ∀ k : ℕ, ∀ x ∈ ((Nat.digits 10 k).reverse), x < 10 := by
    intro k x hx
    exact Nat.digits_lt_base (by norm_num) (List.mem_reverse.mp hx)
  by_cases hm : m = 0 <;> by_cases hn : n = 0
  · omega
  · exfalso
    subst hm
    rw [natChars_eq_digits hn] at h
    simp only [natChars, if_pos rfl] at h
    have h0 : ([0] : List ℕ).map digitChar10 = ((Nat.digits 10 n).reverse).map digitChar10 := by
      simpa [digitChar10] using h
    have := map_digitChar10_inj [0] ((Nat.digits 10 n).reverse)
      (by intro x hx; simp at hx; omega) (digbound n) h0
    have hd : Nat.digits 10 n = [0] := by
      have := congrArg List.reverse this
      simpa using this.symm
    have := Nat.ofDigits_digits 10 n
    rw [hd] at this
    simp [Nat.ofDigits] at this
    exact hn this.symm
  · exfalso
    subst hn
    rw [natChars_eq_digits hm] at h
    simp only [natChars, if_pos rfl] at h
    have h0 : ((Nat.digits 10 m).reverse).map digitChar10 = ([0] : List ℕ).map digitChar10 := by
      simpa [digitChar10] using h
    have := map_digitChar10_inj ((Nat.digits 10 m).reverse) [0]
      (digbound m) (by intro x hx; simp at hx; omega) h0
    have hd : Nat.digits 10 m = [0] := by
      have := congrArg List.reverse this
      simpa using this
    have := Nat.ofDigits_digits 10 m
    rw [hd] at this
    simp [Nat.ofDigits] at this
    exact hm this.symm
  · rw [natChars_eq_digits hm, natChars_eq_digits hn] at h
    have := map_digitChar10_inj _ _ (digbound m) (digbound n) h
    have hd : Nat.digits 10 m = Nat.digits 10 n := by
      have := congrArg List.reverse this
      simpa using this
    calc m = Nat.ofDigits 10 (Nat.digits 10 m) := (Nat.ofDigits_digits 10 m).symm
    _ = Nat.ofDigits 10 (Nat.digits 10 n) := by rw [hd]
    _ = n := Nat.ofDigits_digits 10 n

theorem intChars_inj {m n : ℤ} (h : intChars m = intChars n) : m = n := by
  unfold intChars at h
  split at h <;> split at h
  · simp only [List.cons.injEq, true_and] at h
    have := natChars_inj h
    omega
  · exfalso
    have : '-' ∈ natChars n.toNat := by
      rw [← h]; exact List.mem_cons_self _ _
    exact dash_not_mem_natChars this
  · exfalso
    have : '-' ∈ natChars m.toNat := by
      rw [h]; exact List.mem_cons_self _ _
    exact dash_not_mem_natChars this
  · have := natChars_inj h
    omega

theorem underscore_not_mem_intChars {n : ℤ} : '_' ∉ intChars n := by
  unfold intChars
  split
  · intro h
    rcases List.mem_cons.mp h with h | h
    · exact absurd h (by decide)
    · exact underscore_not_mem_natChars h
  · exact underscore_not_mem_natChars

theorem slash_not_mem_intChars {n : ℤ} : '/' ∉ intChars n := by
  unfold intChars
  split
  · intro h
    rcases List.mem_cons.mp h with h | h
    · exact absurd h (by decide)
    · exact slash_not_mem_natChars h
  · exact slash_not_mem_natChars

theorem underscore_not_mem_ratChars {x : ℚ} : '_' ∉ ratChars x := by
  unfold ratChars
  intro h
  rcases List.mem_append.mp h with h | h
  · exact underscore_not_mem_intChars h
  · rcases List.mem_cons.mp h with h | h
    · exact absurd h (by decide)
    · exact underscore_not_mem_natChars h

/-- Splitting a separated concatenation: when neither prefix contains the
separator, the two sides of the separator match up. -/
theorem append_sep_inj {sep : Char} :
    ∀ (a : List Char) {b : List Char} (c : List Char) {d : List Char},
      sep ∉ a → sep ∉ c → a ++ sep :: b = c ++ sep :: d → a = c ∧ b = d := by
  intro a
  induction a with
  | nil =>
    intro b c d _ hc h
    cases c with
    | nil =>
      simp only [List.nil_append, List.cons.injEq] at h
      exact ⟨rfl, h.2⟩
    | cons y u =>
      exfalso
      simp only [List.nil_append, List.cons_append, List.cons.injEq] at h
      exact hc (h.1 ▸ List.mem_cons_self y u)
  | cons x t ih =>
    intro b c d ha hc h
    cases c with
    | nil =>
      exfalso
      simp only [List.cons_append, List.nil_append, List.cons.injEq] at h
      exact ha (h.1 ▸ List.mem_cons_self x t)
    | cons y u =>
      simp only [List.cons_append, List.cons.injEq] at h
      obtain ⟨hxy, ht⟩ := h
      have := ih u (fun hmem => ha (List.mem_cons_of_mem x hmem))
        (fun hmem => hc (List.mem_cons_of_mem y hmem)) ht
      exact ⟨by rw [hxy, this.1], this.2⟩

theorem ratChars_inj {p q : ℚ} (h : ratChars p = ratChars q) : p = q := by
  unfold ratChars at h
  have := append_sep_inj (intChars p.num) (intChars q.num)
    slash_not_mem_intChars slash_not_mem_intChars h
  exact Rat.ext (intChars_inj this.1) (natChars_inj this.2)

/-- The storage index determines each of its seven components. -/
theorem setIndex_inj {h₁ h₂ : ℤ} {x₁ x₂ c₁ c₂ z₁ z₂ d₁ d₂ : ℚ}
    {s₁ s₂ e₁ e₂ : ℤ}
    (h : setIndex h₁ x₁ c₁ z₁ d₁ s₁ e₁ = setIndex h₂ x₂ c₂ z₂ d₂ s₂ e₂) :
    h₁ = h₂ ∧ x₁ = x₂ ∧ c₁ = c₂ ∧ z₁ = z₂ ∧ d₁ = d₂ ∧ s₁ = s₂ ∧ e₁ = e₂ := by
  have hdata := congrArg String.data h
  simp only [setIndex] at hdata
  obtain ⟨hh, hdata⟩ := append_sep_inj _ _
    underscore_not_mem_intChars underscore_not_mem_intChars hdata
  obtain ⟨hx, hdata⟩ := append_sep_inj _ _
    underscore_not_mem_ratChars underscore_not_mem_ratChars hdata
  obtain ⟨hc, hdata⟩ := append_sep_inj _ _
    underscore_not_mem_ratChars underscore_not_mem_ratChars hdata
  obtain ⟨hz, hdata⟩ := append_sep_inj _ _
    underscore_not_mem_ratChars underscore_not_mem_ratChars hdata
  obtain ⟨hd, hdata⟩ := append_sep_inj _ _
    underscore_not_mem_ratChars underscore_not_mem_ratChars hdata
  obtain ⟨hs, he⟩ := append_sep_inj _ _
    underscore_not_mem_intChars underscore_not_mem_intChars hdata
  exact ⟨intChars_inj hh, ratChars_inj hx, ratChars_inj hc, ratChars_inj hz,
    ratChars_inj hd, intChars_inj hs, intChars_inj he⟩

theorem batchBound_mono (total npp : ℕ) {i j : ℕ} (hij : i ≤ j) :
    batchBound total npp i ≤ batchBound total npp j :=
  Nat.div_le_div_right (Nat.mul_le_mul_right total hij)

/-- Claim C2 body: the boundary points start at 0, end at `total`, are
monotone, and every grid index lies in exactly one shard segment. -/
theorem batch_partition (total npp : ℕ) (hnpp : 1 ≤ npp) :
    batchBound total npp 0 = 0 ∧ batchBound total npp npp = total ∧
    (∀ i j, i ≤ j → batchBound total npp i ≤ batchBound total npp j) ∧
    ∀ k, k < total →
      ∃! i, i < npp ∧ batchBound total npp i ≤ k ∧ k < batchBound total npp (i + 1) := by
  have hend : batchBound total npp npp = total := by
    unfold batchBound
    exact Nat.mul_div_cancel_left total (by omega)
  refine ⟨by simp [batchBound], hend, fun i j hij => batchBound_mono total npp hij, ?_⟩
  intro k hk
  set P : ℕ → Prop := fun i => batchBound total npp i ≤ k with hP
  have hP0 : P 0 := by simp [hP, batchBound]
  set i₀ := Nat.findGreatest P npp with hi₀
  have hPi : P i₀ := Nat.findGreatest_spec (Nat.zero_le npp) hP0
  have hle : i₀ ≤ npp := Nat.findGreatest_le npp
  have hlt : i₀ < npp := by
    rcases Nat.lt_or_ge i₀ npp with h | h
    · exact h
    · exfalso
      have : i₀ = npp := le_antisymm hle h
      rw [this, hP, hend] at hPi
      omega
  have hk1 : k < batchBound total npp (i₀ + 1) := by
    have := Nat.findGreatest_is_greatest (P := P) (Nat.lt_succ_self i₀) (by omega)
    simpa [hP] using Nat.lt_of_not_le this
  refine ⟨i₀, ⟨hlt, hPi, hk1⟩, ?_⟩
  intro j ⟨hj, hbj, hkj⟩
  rcases lt_trichotomy j i₀ with h | h | h
  · exfalso
    have : batchBound total npp (j + 1) ≤ batchBound total npp i₀ :=
      batchBound_mono total npp (by omega)
    omega
  · exact h
  · exfalso
    have : batchBound total npp (i₀ + 1) ≤ batchBound total npp j :=
      batchBound_mono total npp (by omega)
    omega

theorem runLoop_aux (obs : List ObsRec) (seas : ℤ)
    (hshort : (seasonSel obs seas).length < 5) :
    ∀ (seasons : List ℤ) (acc : List (ℤ × List ObsRec)) (x : List ObsRec),
      (seas, x) ∉ acc →
      (seas, x) ∉ seasons.foldl
        (fun acc seas =>
          let sel := seasonSel obs seas
          if 5 ≤ sel.length then acc ++ [(seas, sel)] else acc)
        acc := by
  intro seasons
  induction seasons with
  | nil => intro acc x hx; simpa using hx
  | cons s rest ih =>
    intro acc x hx
    simp only [List.foldl_cons]
    split
    · apply ih
      intro hmem
      rcases List.mem_append.mp hmem with h | h
      · exact hx h
      · simp only [List.mem_singleton, Prod.mk.injEq] at h
        rw [h.1] at hshort
        omega
    · exact ih acc x hx

theorem lookupKey_eq_none_of_not_mem {α : Type} {k : String} :
    ∀ {l : List (String × α)}, k ∉ l.map Prod.fst → lookupKey k l = none := by
  intro l
  induction l with
  | nil => intro _; rfl
  | cons p rest ih =>
    intro h
    simp only [List.map_cons, List.mem_cons] at h
    push_neg at h
    rw [lookupKey, if_neg (fun he : p.1 = k => h.1 he.symm)]
    exact ih h.2

theorem lookupKey_isSome_of_mem {α : Type} {k : String} :
    ∀ {l : List (String × α)}, k ∈ l.map Prod.fst → (lookupKey k l).isSome := by
  intro l
  induction l with
  | nil => intro h; simp at h
  | cons p rest ih =>
    intro h
    simp only [lookupKey]
    by_cases he : p.1 = k
    · simp [he]
    · simp only [List.map_cons, List.mem_cons] at h
      rcases h with h | h
      · exact absurd h.symm he
      · simpa [he] using ih h

theorem map_fst_filter_key {α : Type} (cond : String → Bool) :
    ∀ (e : List (String × α)),
      (e.filter (fun p => cond p.1)).map Prod.fst = (e.map Prod.fst).filter cond := by
  intro e
  induction e with
  | nil => rfl
  | cons p rest ih =>
    by_cases h : cond p.1
    · simp [List.filter_cons, h, ih]
    · simp [List.filter_cons, h, ih]

theorem dictUpdate_map_fst_part (e : List (String × MetaVal)) :
    ∀ (d : List (String × MetaVal)),
      (d.map (fun p =>
        match lookupKey p.1 e with
        | some v => (p.1, v)
        | none => p)).map Prod.fst = d.map Prod.fst := by
  intro d
  induction d with
  | nil => rfl
  | cons p rest ih =>
    simp only [List.map_cons, ih, List.cons.injEq, and_true]
    cases lookupKey p.1 e <;> rfl

theorem metadict_keys {SNID : ℤ} {idx : String} {season : ℤ} {n : ℕ} {area : ℚ}
    {e : List (String × MetaVal)} {ms : List String} (hms : e.map Prod.fst = ms) :
    (dictUpdate (stdMetadict SNID idx season n area) e).map Prod.fst = accKeys ms := by
  unfold dictUpdate accKeys
  rw [List.map_append, dictUpdate_map_fst_part]
  have h1 : (stdMetadict SNID idx season n area).map Prod.fst = stdNames := rfl
  rw [h1, map_fst_filter_key (fun k => (lookupKey k (stdMetadict SNID idx season n area)).isNone), hms]
  congr 1
  apply List.filter_congr
  intro k _
  by_cases hk : k ∈ stdNames
  · have := lookupKey_isSome_of_mem (l := stdMetadict SNID idx season n area)
      (by rw [h1]; exact hk)
    simp [Option.isNone, hk]
    cases hl : lookupKey k (stdMetadict SNID idx season n area)
    · rw [hl] at this; simp at this
    · simp
  · rw [lookupKey_eq_none_of_not_mem (by rw [h1]; exact hk)]
    simp [hk]

theorem pushEntry_fst {β : Type} (push : List MetaVal → β → List MetaVal)
    (md : List (String × β)) (p : String × List MetaVal) :
    (pushEntry push md p).1 = p.1 := by
  unfold pushEntry
  cases lookupKey p.1 md <;> rfl

theorem accExtend_spec {β : Type} (push : List MetaVal → β → List MetaVal) :
    ∀ (md : List (String × β)) (acc : List (String × List MetaVal)),
      (∀ k ∈ md.map Prod.fst, k ∈ acc.map Prod.fst) → (md.map Prod.fst).Nodup →
      accExtend push acc md = some (acc.map (pushEntry push md)) := by
  intro md
  induction md with
  | nil =>
    intro acc _ _
    have hid : acc.map (pushEntry push []) = acc := by
      have h1 : ∀ p ∈ acc, pushEntry push [] p = id p := fun p _ => by
        simp [pushEntry, lookupKey]
      rw [List.map_congr_left h1, List.map_id]
    rw [hid]
    simp [accExtend]
  | cons kv rest ih =>
    intro acc hsub hnodup
    have hk : kv.1 ∈ acc.map Prod.fst := hsub kv.1 (by simp)
    have hguard := lookupKey_isSome_of_mem hk
    set acc1 := acc.map (fun q => if q.1 = kv.1 then (q.1, push q.2 kv.2) else q) with hacc1
    have step : accExtend push acc (kv :: rest) = accExtend push acc1 rest := by
      simp only [accExtend, List.foldl_cons, Option.bind, hguard, if_true]
    have hkeys1 : acc1.map Prod.fst = acc.map Prod.fst := by
      rw [hacc1, List.map_map]
      apply List.map_congr_left
      intro p _
      by_cases h : p.1 = kv.1 <;> simp [h]
    have hnod2 : (rest.map Prod.fst).Nodup := by
      simp only [List.map_cons, List.nodup_cons] at hnodup
      exact hnodup.2
    have hknotin : kv.1 ∉ rest.map Prod.fst := by
      simp only [List.map_cons, List.nodup_cons] at hnodup
      exact hnodup.1
    rw [step, ih acc1 (by rw [hkeys1]; exact fun k hkm => hsub k (by simp [hkm])) hnod2]
    congr 1
    rw [hacc1, List.map_map]
    apply List.map_congr_left
    intro p _
    by_cases h : p.1 = kv.1
    · have h1 : lookupKey p.1 rest = none := by
        rw [h]; exact lookupKey_eq_none_of_not_mem hknotin
      have h2 : lookupKey p.1 (kv :: rest) = some kv.2 := by
        rw [lookupKey, if_pos h.symm]
      simp only [Function.comp_apply, if_pos h, pushEntry, h1, h2]
    · have h2 : lookupKey p.1 (kv :: rest) = lookupKey p.1 rest := by
        rw [lookupKey, if_neg (fun he : kv.1 = p.1 => h he.symm)]
      simp only [Function.comp_apply, if_neg h, pushEntry, h2]

theorem keys_filter_subset {α : Type} (f : String × α → Bool) (e : List (String × α))
    {k : String} (hk : k ∈ (e.filter f).map Prod.fst) : k ∈ e.map Prod.fst := by
  obtain ⟨p, hp, hpk⟩ := List.mem_map.mp hk
  exact hpk ▸ List.mem_map_of_mem Prod.fst (List.mem_of_mem_filter hp)

theorem lookupKey_append_left {α : Type} {k : String} {v : α} :
    ∀ {l1 l2 : List (String × α)}, lookupKey k l1 = some v →
      lookupKey k (l1 ++ l2) = some v := by
  intro l1
  induction l1 with
  | nil => intro l2 h; exact absurd h (by simp [lookupKey])
  | cons p t ih =>
    intro l2 h
    rw [List.cons_append, lookupKey]
    rw [lookupKey] at h
    by_cases hp : p.1 = k
    · rwa [if_pos hp] at h ⊢
    · rw [if_neg hp] at h ⊢
      exact ih h

theorem lookupKey_append_of_none {α : Type} {k : String} :
    ∀ {l1 l2 : List (String × α)}, lookupKey k l1 = none →
      lookupKey k (l1 ++ l2) = lookupKey k l2 := by
  intro l1
  induction l1 with
  | nil => intro l2 _; rfl
  | cons p t ih =>
    intro l2 h
    rw [lookupKey] at h
    by_cases hp : p.1 = k
    · rw [if_pos hp] at h; exact absurd h (by simp)
    · rw [if_neg hp] at h
      rw [List.cons_append, lookupKey, if_neg hp]
      exact ih h

theorem lookupKey_map_update {k : String} {e : List (String × MetaVal)}
    (hk : k ∉ e.map Prod.fst) :
    ∀ d : List (String × MetaVal),
      lookupKey k (d.map (fun p =>
        match lookupKey p.1 e with
        | some v => (p.1, v)
        | none => p)) = lookupKey k d := by
  intro d
  induction d with
  | nil => rfl
  | cons p d2 ih =>
    rw [List.map_cons]
    by_cases h : p.1 = k
    · have he : lookupKey p.1 e = none := by
        rw [h]; exact lookupKey_eq_none_of_not_mem hk
      have hF : (match lookupKey p.1 e with
          | some v => (p.1, v)
          | none => p) = p := by rw [he]
      rw [hF, lookupKey, lookupKey, if_pos h, if_pos h]
    · have hF1 : (match lookupKey p.1 e with
          | some v => (p.1, v)
          | none => p).1 = p.1 := by
        cases lookupKey p.1 e <;> rfl
      rw [lookupKey, lookupKey, hF1, if_neg h, if_neg h]
      exact ih

theorem lookupKey_dictUpdate_of_not_mem {k : String} {e : List (String × MetaVal)}
    (hk : k ∉ e.map Prod.fst) (d : List (String × MetaVal)) :
    lookupKey k (dictUpdate d e) = lookupKey k d := by
  unfold dictUpdate
  by_cases hmem : k ∈ d.map Prod.fst
  · obtain ⟨v, hv⟩ := Option.isSome_iff_exists.mp (lookupKey_isSome_of_mem hmem)
    rw [hv]
    apply lookupKey_append_left
    rw [lookupKey_map_update hk d]
    exact hv
  · have hnone : lookupKey k (d.map (fun p =>
        match lookupKey p.1 e with
        | some v => (p.1, v)
        | none => p)) = none := by
      rw [lookupKey_map_update hk d]
      exact lookupKey_eq_none_of_not_mem hmem
    rw [lookupKey_append_of_none hnone, lookupKey_eq_none_of_not_mem hmem]
    apply lookupKey_eq_none_of_not_mem
    intro hmem2
    exact hk (keys_filter_subset _ e hmem2)

theorem metaAccInit_keys (md : List (String × MetaVal)) :
    (metaAccInit md).map Prod.fst = md.map Prod.fst := by
  unfold metaAccInit
  rw [List.map_map]
  rfl

theorem metaAccInit_len (md : List (String × MetaVal)) :
    ∀ p ∈ metaAccInit md, p.2.length = 1 := by
  intro p hp
  obtain ⟨q, _, hq⟩ := List.mem_map.mp hp
  rw [← hq]
  rfl

theorem writeLCStep_spec {ρ : Type} {area : ℚ} {SNID season : ℤ} {lc : LCTable ρ}
    {st st2 : WState ρ} {ms : List String} {L : ℕ} {idx : String}
    (hms : lc.meta.map Prod.fst = ms)
    (hnodup : (accKeys ms).Nodup)
    (hacc : st.meta = [] ∨ st.meta.map Prod.fst = accKeys ms)
    (hlen : ∀ p ∈ st.meta, p.2.length = L)
    (hL0 : st.meta = [] → L = 0)
    (hidx : tableIndex lc.meta season = some idx)
    (hstep : writeLCStep area SNID lc season st = some st2) :
    st2.lcEntries = st.lcEntries ++ [("lc_" ++ idx, lc)] ∧
    st2.meta.map Prod.fst = accKeys ms ∧
    ∀ p ∈ st2.meta, p.2.length = L + 1 := by
  unfold writeLCStep at hstep
  rw [hidx] at hstep
  simp only [Option.map_eq_some'] at hstep
  obtain ⟨meta2, hm2, hst2⟩ := hstep
  have hmdk : (dictUpdate (stdMetadict SNID idx season lc.rows.length area) lc.meta).map
      Prod.fst = accKeys ms := metadict_keys hms
  rcases hacc with hemp | hkeys
  · rw [if_pos hemp] at hm2
    injection hm2 with hm2
    subst hm2
    subst hst2
    refine ⟨rfl, ?_, ?_⟩
    · rw [metaAccInit_keys, hmdk]
    · intro p hp
      rw [hL0 hemp]
      exact metaAccInit_len _ p hp
  · have hne : st.meta ≠ [] := by
      intro h0
      rw [h0] at hkeys
      have h1 : accKeys ms = [] := hkeys.symm
      simp [accKeys, stdNames] at h1
    rw [if_neg hne] at hm2
    rw [metaAccExtend, accExtend_spec _ _ st.meta
      (by rw [hmdk, hkeys]; exact fun k hk => hk)
      (by rw [hmdk]; exact hnodup)] at hm2
    injection hm2 with hm2
    subst hm2
    subst hst2
    refine ⟨rfl, ?_, ?_⟩
    · rw [List.map_map, ← hkeys]
      apply List.map_congr_left
      intro p _
      exact pushEntry_fst _ _ p
    · intro p hp
      obtain ⟨q, hq, hqp⟩ := List.mem_map.mp hp
      have hqmem : q.1 ∈ (dictUpdate (stdMetadict SNID idx season lc.rows.length area)
          lc.meta).map Prod.fst := by
        rw [hmdk, ← hkeys]
        exact List.mem_map_of_mem Prod.fst hq
      obtain ⟨v, hv⟩ := Option.isSome_iff_exists.mp (lookupKey_isSome_of_mem hqmem)
      rw [← hqp]
      simp only [pushEntry, hv]
      simp [hlen q hq]

theorem dump_trace {ρ : Type} (area : ℚ) (season : ℤ) :
    ∀ (lcs : List (LCTable ρ)) (snid : ℤ) (st : WState ρ)
      (out : ℤ × WState ρ × List ℤ),
      dump area season snid st lcs = some out →
      out.2.2 = (List.range lcs.length).map (fun (k : ℕ) => snid + (k : ℤ) + 1) ∧
      out.1 = snid + lcs.length := by
  intro lcs
  induction lcs with
  | nil =>
    intro snid st out h
    rw [dump] at h
    injection h with h
    rw [← h]
    constructor <;> simp
  | cons lc rest ih =>
    intro snid st out h
    rw [dump] at h
    split at h
    · exact absurd h (by simp)
    · rename_i st2 hw
      split at h
      · exact absurd h (by simp)
      · rename_i fin stf tr hd
        injection h with h
        obtain ⟨htr, hfin⟩ := ih (snid + 1) st2 (fin, stf, tr) hd
        replace htr : tr = (List.range rest.length).map (fun (k : ℕ) => snid + 1 + (k : ℤ) + 1) := htr
        replace hfin : fin = snid + 1 + (rest.length : ℤ) := hfin
        rw [← h]
        constructor
        · show (snid + 1) :: tr = _
          rw [htr, List.length_cons, List.range_succ_eq_map, List.map_cons, List.map_map]
          refine List.cons_eq_cons.mpr ⟨by norm_num, ?_⟩
          apply List.map_congr_left
          intro k _
          simp only [Function.comp_apply]
          push_cast
          ring_nf
        · show fin = snid + ((rest.length : ℤ) + 1)
          rw [hfin]
          ring

theorem dump_accounting {ρ : Type} (area : ℚ) (season : ℤ) {ms : List String}
    (hnodup : (accKeys ms).Nodup) :
    ∀ (lcs : List (LCTable ρ)) (snid : ℤ) (st : WState ρ) (L : ℕ)
      (out : ℤ × WState ρ × List ℤ),
      (∀ lc ∈ lcs, lc.meta.map Prod.fst = ms) →
      (st.meta = [] ∨ st.meta.map Prod.fst = accKeys ms) →
      (∀ p ∈ st.meta, p.2.length = L) →
      (st.meta = [] → L = 0) →
      dump area season snid st lcs = some out →
      (∃ es, entriesOf season lcs = some es ∧
        out.2.1.lcEntries = st.lcEntries ++ es) ∧
      (∀ p ∈ out.2.1.meta, p.2.length = L + lcs.length) ∧
      (lcs ≠ [] → out.2.1.meta.map Prod.fst = accKeys ms) ∧
      (lcs = [] → out.2.1.meta = st.meta) := by
  intro lcs
  induction lcs with
  | nil =>
    intro snid st L out _ _ hlen _ h
    rw [dump] at h
    injection h with h
    rw [← h]
    exact ⟨⟨[], rfl, by simp⟩, fun p hp => by simpa using hlen p hp,
      fun hne => absurd rfl hne, fun _ => rfl⟩
  | cons lc rest ih =>
    intro snid st L out hms hacc hlen hL0 h
    rw [dump] at h
    split at h
    · exact absurd h (by simp)
    · rename_i st2 hw
      split at h
      · exact absurd h (by simp)
      · rename_i fin stf tr hd
        injection h with h
        cases hti : tableIndex lc.meta season with
        | none =>
          exfalso
          rw [writeLCStep, hti] at hw
          exact absurd hw (by simp)
        | some idx =>
          have hspec := writeLCStep_spec (hms lc (by simp)) hnodup hacc hlen hL0 hti hw
          have hne2 : st2.meta ≠ [] := by
            intro h0
            have h1 := hspec.2.1
            rw [h0] at h1
            have h2 : accKeys ms = [] := h1.symm
            simp [accKeys, stdNames] at h2
          have ihres := ih (snid + 1) st2 (L + 1) (fin, stf, tr)
            (fun t ht => hms t (by simp [ht]))
            (Or.inr hspec.2.1) hspec.2.2 (fun h0 => absurd h0 hne2) hd
          rw [← h]
          refine ⟨?_, ?_, ?_, ?_⟩
          · obtain ⟨es, hes, hst⟩ := ihres.1
            refine ⟨("lc_" ++ idx, lc) :: es, ?_, ?_⟩
            · rw [entriesOf, hti, hes]
            · show stf.lcEntries = _
              rw [hst, hspec.1, List.append_assoc, List.singleton_append]
          · intro p hp
            have hplen := ihres.2.1 p hp
            rw [hplen]
            simp only [List.length_cons]
            omega
          · intro _
            by_cases hrest : rest = []
            · subst hrest
              have hsame := ihres.2.2.2 rfl
              show stf.meta.map Prod.fst = accKeys ms
              rw [hsame]
              exact hspec.2.1
            · exact ihres.2.2.1 hrest
          · intro habs
            exact absurd habs (by simp)

theorem buildResultDict_append (msgs : List (ℕ × List (String × List MetaVal)))
    (p : ℕ × List (String × List MetaVal)) :
    buildResultDict (msgs ++ [p]) =
      fun j => if j = p.1 then some p.2 else buildResultDict msgs j := by
  unfold buildResultDict
  rw [List.foldl_append]
  rfl

theorem buildResultDict_mem :
    ∀ {msgs : List (ℕ × List (String × List MetaVal))},
      (msgs.map Prod.fst).Nodup →
      ∀ {j : ℕ} {m}, (j, m) ∈ msgs → buildResultDict msgs j = some m := by
  intro msgs
  induction msgs using List.reverseRecOn with
  | nil => intro _ j m hm; simp at hm
  | append_singleton msgs p ih =>
    intro hnodup j m hm
    rw [List.map_append, List.nodup_append] at hnodup
    rw [buildResultDict_append]
    rcases List.mem_append.mp hm with h | h
    · have hj : j ≠ p.1 := by
        intro he
        have hmem : j ∈ msgs.map Prod.fst := List.mem_map_of_mem Prod.fst h
        have := hnodup.2.2 hmem
        simp [he] at this
      show (if j = p.1 then some p.2 else buildResultDict msgs j) = some m
      rw [if_neg hj]
      exact ih hnodup.1 h
    · simp only [List.mem_singleton] at h
      subst h
      show (if j = (j, m).1 then some (j, m).2 else buildResultDict msgs j) = some m
      simp

/-- An association list with nodup keys is the map of its own lookups over
its key list. -/
theorem assoc_eq_keys_map :
    ∀ (a : List (String × List MetaVal)) (ks : List String),
      a.map Prod.fst = ks → ks.Nodup →
      a = ks.map (fun k => (k, (lookupKey k a).getD [])) := by
  intro a
  induction a with
  | nil =>
    intro ks hks _
    rw [← hks]
    rfl
  | cons p t ih =>
    intro ks hks hnd
    rw [← hks]
    rw [← hks] at hnd
    simp only [List.map_cons, List.nodup_cons] at hnd
    simp only [List.map_cons, List.map_cons]
    refine List.cons_eq_cons.mpr ⟨?_, ?_⟩
    · rw [lookupKey, if_pos rfl]
      rfl
    · have hstep : (t.map Prod.fst).map (fun k => (k, (lookupKey k (p :: t)).getD [])) =
          (t.map Prod.fst).map (fun k => (k, (lookupKey k t).getD [])) := by
        apply List.map_congr_left
        intro k hk
        have hkp : p.1 ≠ k := by
          intro he
          exact hnd.1 (he ▸ hk)
        rw [lookupKey, if_neg hkp]
      rw [hstep]
      exact ih (t.map Prod.fst) rfl hnd.2

theorem keyed_map_fst (ks : List String) (f : String → List MetaVal) :
    (ks.map (fun k => (k, f k))).map Prod.fst = ks := by
  rw [List.map_map]
  exact List.map_id ks

theorem mergeAll_expected (d : ℕ → Option (List (String × List MetaVal)))
    (r : ℕ → List (String × List MetaVal)) (ks : List String) (hnd : ks.Nodup) :
    ∀ (n : ℕ), 1 ≤ n →
      (∀ j, j < n → d j = some (r j)) →
      (∀ j, j < n → (r j).map Prod.fst = ks) →
      mergeAll d n = some (ks.map (fun k =>
        (k, ((List.range n).map (fun j => (lookupKey k (r j)).getD [])).flatten))) := by
  intro n
  induction n with
  | zero => intro h; omega
  | succ n ih =>
    intro _ hd hkeys
    by_cases hn : n = 0
    · subst hn
      have hr1 : List.range 1 = [0] := by decide
      have h0 : mergeAll d 1 = mergeMeta [] (r 0) := by
        unfold mergeAll
        rw [hr1]
        simp only [List.foldl_cons, List.foldl_nil, Option.some_bind, hd 0 (by omega)]
      have hexp : (List.map (fun k =>
          (k, ((List.range 1).map (fun j => (lookupKey k (r j)).getD [])).flatten)) ks) =
          ks.map (fun k => (k, (lookupKey k (r 0)).getD [])) := by
        apply List.map_congr_left
        intro k _
        simp [hr1]
      rw [h0, mergeMeta, if_pos rfl, hexp]
      exact congrArg some (assoc_eq_keys_map (r 0) ks (hkeys 0 (by omega)) hnd)
    · have hmerge : mergeAll d (n + 1) =
          (mergeAll d n).bind (fun a => (d n).bind (fun md => mergeMeta a md)) := by
        unfold mergeAll
        rw [List.range_succ, List.foldl_append]
        rfl
      rw [hmerge, ih (by omega) (fun j hj => hd j (by omega)) (fun j hj => hkeys j (by omega)),
        Option.some_bind, hd n (by omega), Option.some_bind]
      by_cases hks : ks = []
      · subst hks
        have hrn : r n = [] := List.map_eq_nil_iff.mp (hkeys n (by omega))
        simp [mergeMeta, hrn]
      · have hne : ks.map (fun k =>
            (k, ((List.range n).map (fun j => (lookupKey k (r j)).getD [])).flatten)) ≠ [] := by
          intro h0
          exact hks (List.map_eq_nil_iff.mp h0)
        rw [mergeMeta, if_neg hne]
        rw [accExtend_spec (fun l vs => l ++ vs) (r n) _
          (by rw [keyed_map_fst, hkeys n (by omega)]; exact fun k hk => hk)
          (by rw [hkeys n (by omega)]; exact hnd)]
        congr 1
        rw [List.map_map]
        apply List.map_congr_left
        intro k hk
        have hkmem : k ∈ (r n).map Prod.fst := by rw [hkeys n (by omega)]; exact hk
        obtain ⟨v, hv⟩ := Option.isSome_iff_exists.mp (lookupKey_isSome_of_mem hkmem)
        simp only [Function.comp_apply, pushEntry, hv, List.range_succ, List.map_append,
          List.flatten_append]
        simp [hv]

/-- Claim C1 counterexample: two GenerationParameters that differ in
epsilon_x0 (and in epsilon_daymax) but receive the same StorageIndex
string, because both epsilon combinations encode to the integer 1. -/
theorem storageIndex_collision_distinct_epsilons :
    gEps1.epsilon_x0 ≠ gEps2.epsilon_x0 ∧
    gEps1.epsilon_daymax ≠ gEps2.epsilon_daymax ∧
    storageIndex gEps1 1 = storageIndex gEps2 1 := by
  refine ⟨by norm_num [gEps1, gEps2], by norm_num [gEps1, gEps2], ?_⟩
  have hcode : epsilonCode ((1:ℚ)/10^11) 0 0 0 = epsilonCode 0 0 0 ((1:ℚ)/10^8) := by
    norm_num [epsilonCode, trunc]
  simp only [storageIndex, gEps1, gEps2]
  rw [hcode]

/-- Claim C1 (amended): two GenerationParameters whose index components
differ — pixel id, stretch, color, redshift rounded to 3 decimals, daymax
rounded to 3 decimals, season, or the integer epsilon code computed from
the four perturbations — receive distinct StorageIndex strings.  (Raw
epsilon differences alone are not enough: the truncated integer encoding
can collide, as the counterexample shows.) -/
theorem storageIndex_inj_components (p q : GenParams) (sp sq : ℤ)
    (h : p.healpixID ≠ q.healpixID ∨ p.x1 ≠ q.x1 ∨ p.color ≠ q.color ∨
      round3 p.z ≠ round3 q.z ∨ round3 p.daymax ≠ round3 q.daymax ∨ sp ≠ sq ∨
      epsilonCode p.epsilon_x0 p.epsilon_x1 p.epsilon_color p.epsilon_daymax ≠
        epsilonCode q.epsilon_x0 q.epsilon_x1 q.epsilon_color q.epsilon_daymax) :
    storageIndex p sp ≠ storageIndex q sq := by
  intro he
  unfold storageIndex at he
  have hc := setIndex_inj he
  rcases h with h | h | h | h | h | h | h
  · exact h hc.1
  · exact h hc.2.1
  · exact h hc.2.2.1
  · exact h hc.2.2.2.1
  · exact h hc.2.2.2.2.1
  · exact h hc.2.2.2.2.2.1
  · exact h hc.2.2.2.2.2.2

/-- Witness for the amended C1 theorem at a concrete input: two parameter
sets in different pixels get distinct index strings. -/
theorem storageIndex_inj_components_witness :
    gW1.healpixID ≠ gW2.healpixID ∧ storageIndex gW1 1 ≠ storageIndex gW2 1 :=
  ⟨by norm_num [gW1, gW2],
    storageIndex_inj_components gW1 gW2 1 1 (Or.inl (by norm_num [gW1, gW2]))⟩

/-- Witness for the C2 partition theorem: seven parameters over three
workers. -/
theorem batch_partition_witness :
    ((1:ℕ) ≤ 3) ∧
    (batchBound 7 3 0 = 0 ∧ batchBound 7 3 3 = 7 ∧
      (∀ i j, i ≤ j → batchBound 7 3 i ≤ batchBound 7 3 j) ∧
      ∀ k, k < 7 →
        ∃! i, i < 3 ∧ batchBound 7 3 i ≤ k ∧ k < batchBound 7 3 (i + 1)) :=
  ⟨by norm_num, batch_partition 7 3 (by norm_num)⟩

/-- Claim C3: over one shard, `dump` seeds nothing new — the counter keyed
by the shard's process tag starts at 10^tag — and assigns one incremented
SNID per emitted table, so the assigned identity sequence is
10^tag + 1, 10^tag + 2, ... : strictly increasing, all above the seed, and
the counter ends at the seed plus the number of emitted tables. -/
theorem snid_monotonic {ρ : Type} (area : ℚ) (season : ℤ) (j : ℕ)
    (lcs : List (LCTable ρ)) (st : WState ρ) (out : ℤ × WState ρ × List ℤ)
    (h : dump area season (10 ^ j) st lcs = some out) :
    out.2.2 = (List.range lcs.length).map (fun (k : ℕ) => (10:ℤ) ^ j + (k:ℤ) + 1) ∧
    List.Pairwise (· < ·) out.2.2 ∧
    (∀ s ∈ out.2.2, (10:ℤ) ^ j < s) ∧
    out.1 = 10 ^ j + lcs.length := by
  obtain ⟨htr, hfin⟩ := dump_trace area season lcs _ st out h
  refine ⟨htr, ?_, ?_, hfin⟩
  · rw [htr]
    refine List.Pairwise.map _ ?_ (List.pairwise_lt_range lcs.length)
    intro a b hab
    have hab2 : (a:ℤ) < b := by exact_mod_cast hab
    linarith
  · intro s hs
    rw [htr] at hs
    obtain ⟨k, _, hk⟩ := List.mem_map.mp hs
    rw [← hk]
    have hk0 : (0:ℤ) ≤ (k:ℤ) := Int.natCast_nonneg k
    linarith

/-- Witness for the C3 theorem: dumping two tables from seed 10^1 assigns
SNIDs 11, 12. -/
theorem snid_monotonic_witness :
    ∃ out, dump (ρ := Unit) 1 1 (10 ^ 1) ⟨[], []⟩ [lcExA, lcExB] = some out ∧
      (out.2.2 = (List.range 2).map (fun (k : ℕ) => (10:ℤ) ^ 1 + (k:ℤ) + 1) ∧
       List.Pairwise (· < ·) out.2.2 ∧
       (∀ s ∈ out.2.2, (10:ℤ) ^ 1 < s) ∧
       out.1 = 10 ^ 1 + ([lcExA, lcExB].length : ℤ)) := by
  refine ⟨_, rfl, ?_⟩
  exact snid_monotonic (ρ := Unit) 1 1 1 [lcExA, lcExB] ⟨[], []⟩ _ rfl

/-- Claim C4: merging the K worker results happens in worker index order
0..K-1 irrespective of queue arrival order — `msgs` is any permutation of
the posted `{j: result}` messages — and the merged store maps every field
key to the concatenation of the per-worker value lists in index order. -/
theorem merge_concat_deterministic (K : ℕ) (r : ℕ → List (String × List MetaVal))
    (ks : List String) (msgs : List (ℕ × List (String × List MetaVal)))
    (hK : 1 ≤ K)
    (hperm : msgs.Perm ((List.range K).map (fun j => (j, r j))))
    (hkeys : ∀ j, j < K → (r j).map Prod.fst = ks)
    (hnd : ks.Nodup) :
    mergeAll (buildResultDict msgs) K =
      some (ks.map (fun k =>
        (k, ((List.range K).map (fun j => (lookupKey k (r j)).getD [])).flatten))) := by
  apply mergeAll_expected _ r ks hnd K hK _ hkeys
  intro j hj
  apply buildResultDict_mem
  · have h1 : (msgs.map Prod.fst).Perm
        (((List.range K).map (fun j => (j, r j))).map Prod.fst) := hperm.map Prod.fst
    have h2 : ((List.range K).map (fun j => (j, r j))).map Prod.fst = List.range K := by
      rw [List.map_map]
      exact List.map_id _
    rw [h2] at h1
    exact h1.symm.nodup (List.nodup_range K)
  · exact hperm.mem_iff.mpr (List.mem_map_of_mem _ (List.mem_range.mpr hj))

/-- Witness for the C4 theorem: two workers whose messages arrive in
reversed order still merge to the index-order concatenation. -/
theorem merge_concat_deterministic_witness :
    ((1:ℕ) ≤ 2) ∧
    [(1, wr 1), (0, wr 0)].Perm ((List.range 2).map (fun j => (j, wr j))) ∧
    (∀ j, j < 2 → (wr j).map Prod.fst = ["SNID", "z"]) ∧
    (["SNID", "z"] : List String).Nodup ∧
    mergeAll (buildResultDict [(1, wr 1), (0, wr 0)]) 2 =
      some ((["SNID", "z"] : List String).map (fun k =>
        (k, ((List.range 2).map (fun j => (lookupKey k (wr j)).getD [])).flatten))) := by
  have hcanon : ((List.range 2).map (fun j => (j, wr j))) = [(0, wr 0), (1, wr 1)] := rfl
  have hperm : ([(1, wr 1), (0, wr 0)] : List (ℕ × List (String × List MetaVal))).Perm
      ((List.range 2).map (fun j => (j, wr j))) := by
    rw [hcanon]
    exact List.Perm.swap _ _ _
  have hkeys : ∀ j, j < 2 → (wr j).map Prod.fst = ["SNID", "z"] := by
    intro j hj
    interval_cases j <;> rfl
  exact ⟨by norm_num, hperm, hkeys, by decide,
    merge_concat_deterministic 2 wr ["SNID", "z"] _ (by norm_num) hperm hkeys (by decide)⟩

/-- Claim C5 counterexample: with zero matching epochs the combined
FastTable result is empty, and `transform` then returns NO table at all —
not one metadata-only status -1 table as the claim asserts for both
variants. -/
theorem fast_empty_no_table :
    fastTransform [] pmEx = [] ∧ (fastTransform [] pmEx).length ≠ 1 := by
  refine ⟨rfl, ?_⟩
  rw [show fastTransform [] pmEx = [] from rfl]
  simp

/-- Claim C5 (amended): with zero matching epochs the Physics variant
returns exactly one metadata-only table with status -1 and zero rows,
while the FastTable variant's `transform` on the (empty) combined result
returns no table at all. -/
theorem empty_obs_backend_result :
    (∀ (fluxOf : ObsRec → ℚ) (p : CosmoParams) (ptime : ℚ),
      cosmoCall fluxOf p ptime [] = .tables [nosim p ptime (-1)] ∧
      (nosim p ptime (-1)).rows.length = 0 ∧
      lookupKey "status" (nosim p ptime (-1)).meta = some (.i (-1))) ∧
    (∀ pm : Premeta, fastTransform [] pm = []) :=
  ⟨fun _ _ _ => ⟨rfl, rfl, rfl⟩, fun _ => rfl⟩

/-- Claim C6: a season whose usable visits (non-u filters) number fewer
than 5 is skipped silently: it contributes no `simuSeason` invocation and
hence no light-curve entries and no summary records, and processing the
season list is a total function (no error). -/
theorem season_skipped_when_short (obs : List ObsRec) (seasons : List ℤ) (seas : ℤ)
    (hshort : (seasonSel obs seas).length < 5) :
    ∀ x, (seas, x) ∉ runLoop obs seasons := by
  intro x
  exact runLoop_aux obs seas hshort seasons [] x (by simp)

/-- Witness for the C6 theorem at a concrete input. -/
theorem season_skipped_when_short_witness :
    (seasonSel obsC6 1).length < 5 ∧ ∀ x, (1, x) ∉ runLoop obsC6 [1] :=
  ⟨by decide, season_skipped_when_short obsC6 [1] 1 (by decide)⟩

/-- Claim C7 counterexample: the clamp replaces only strictly negative
fluxes, so a zero integrated flux passes through to the magnitude stage
and the log argument is zero, not strictly positive. -/
theorem cosmo_zero_flux_not_clamped :
    cosmoCall (fun _ => 0) pC7 0 [obsC7] =
      .tables [{ rows := [{ flux := 0 }], meta := cosmoMetadata pC7 0 1 }] ∧
    clampFlux 0 = 0 ∧ ¬ (0 < clampFlux 0 / 3631) := by
  refine ⟨rfl, ?_, ?_⟩
  · norm_num [clampFlux]
  · norm_num [clampFlux]

/-- Claim C7 (amended): a strictly negative integrated flux is replaced by
the positive floor 10^-5 before the magnitude logarithm; consequently the
log argument is nonnegative on every row of every table the Physics call
returns, and it is strictly positive whenever the integrated flux is
nonzero — but a zero flux is not replaced, so the argument is not strictly
positive in general. -/
theorem cosmo_flux_clamp (f : ℚ) (fluxOf : ObsRec → ℚ) (p : CosmoParams)
    (ptime : ℚ) (cutObs : List ObsRec) :
    (f < 0 → clampFlux f = 1 / 100000) ∧
    (0 ≤ clampFlux f) ∧
    (f ≠ 0 → 0 < clampFlux f / 3631) ∧
    (∀ ts, cosmoCall fluxOf p ptime cutObs = .tables ts →
      ∀ t ∈ ts, ∀ row ∈ t.rows, 0 ≤ row.flux) := by
  refine ⟨?_, ?_, ?_, ?_⟩
  · intro hf
    rw [clampFlux, if_pos hf]
  · unfold clampFlux
    split
    · norm_num
    · linarith [not_lt.mp (by assumption)]
  · intro hf
    unfold clampFlux
    split
    · norm_num
    · rename_i hnl
      have h0 : 0 < f := lt_of_le_of_ne (not_lt.mp hnl) (Ne.symm hf)
      positivity
  · intro ts hts t ht row hrow
    simp only [cosmoCall] at hts
    split at hts
    · injection hts with hts
      rw [← hts] at ht
      simp only [List.mem_singleton] at ht
      rw [ht] at hrow
      simp [nosim] at hrow
    · split at hts
      · exact absurd hts (by simp)
      · split at hts
        · injection hts with hts
          rw [← hts] at ht
          simp only [List.mem_singleton] at ht
          rw [ht] at hrow
          simp [nosim] at hrow
        · injection hts with hts
          rw [← hts] at ht
          simp only [List.mem_singleton] at ht
          rw [ht] at hrow
          simp only [List.map_map, List.mem_map] at hrow
          obtain ⟨o, _, hro⟩ := hrow
          rw [← hro]
          show 0 ≤ clampFlux _
          unfold clampFlux
          split
          · norm_num
          · linarith [not_lt.mp (by assumption)]

/-- Claim C8: one FastTable call over a whole shard yields, after
`transform`, exactly one table per distinct (z, daymax) pair of the
combined result; each table carries that group's rows and metadata equal
to the grouping pair followed by the shard-shared premeta (stretch, color,
amplitude, the four epsilons, position and pixel fields). -/
theorem fast_transform_groups (rows : List FastRow) (pm : Premeta) :
    (fastTransform rows pm).length = ((rows.map fastKey).dedup).length ∧
    (∀ t ∈ fastTransform rows pm, ∃ key, key ∈ (rows.map fastKey).dedup ∧
      t.meta = fastMetaOf key pm ∧
      t.rows = rows.filter (fun r => fastKey r = key)) ∧
    (∀ key ∈ (rows.map fastKey).dedup, ∃ t ∈ fastTransform rows pm,
      t.meta = fastMetaOf key pm ∧
      t.rows = rows.filter (fun r => fastKey r = key)) ∧
    (∀ key : ℚ × ℚ, fastMetaOf key pm =
      ("z", .q key.1) :: ("daymax", .q key.2) :: premetaPairs pm) := by
  refine ⟨?_, ?_, ?_, fun key => rfl⟩
  · unfold fastTransform fastGroupKeys
    rw [List.length_map]
    exact (List.perm_insertionSort pairLe _).length_eq
  · intro t ht
    obtain ⟨key, hkey, rfl⟩ := List.mem_map.mp ht
    exact ⟨key, (List.perm_insertionSort pairLe _).subset hkey, rfl, rfl⟩
  · intro key hkey
    refine ⟨⟨rows.filter (fun r => fastKey r = key), fastMetaOf key pm⟩, ?_, rfl, rfl⟩
    exact List.mem_map_of_mem _ ((List.perm_insertionSort pairLe _).mem_iff.mpr hkey)

/-- Claim C9: the `len(obs) == 0` branch after the per-epoch frame is
built — the branch that would evaluate the undefined name `metadata` —
is unreachable: the frame has one row per observation, and the call has
already returned the empty-status table when that count is zero. -/
theorem cosmo_metadata_branch_unreachable (fluxOf : ObsRec → ℚ) (p : CosmoParams)
    (ptime : ℚ) (cutObs : List ObsRec) :
    cosmoCall fluxOf p ptime cutObs ≠ CosmoResult.nameError := by
  intro he
  simp only [cosmoCall, List.length_map] at he
  by_cases h : cutObs.length = 0
  · rw [if_pos h] at he
    exact CosmoResult.noConfusion he
  · rw [if_neg h, if_neg h] at he
    split at he <;> exact CosmoResult.noConfusion he

/-- Claim C10: flushing a table list through `dump` increments the SNID
counter once per table (empty status -1 tables included), writes one
artifact entry per table under the path `lc_` plus its storage index, and
appends exactly one value to every key list of the worker's metadata
accumulator, whose lists therefore all have equal length after the flush;
the bookkeeping dict records n_lc_points equal to the table's row count
(0 for an empty table). -/
theorem dump_flush_bookkeeping {ρ : Type} (area : ℚ) (season snid : ℤ)
    (st : WState ρ) (lcs : List (LCTable ρ)) (ms : List String) (L : ℕ)
    (out : ℤ × WState ρ × List ℤ)
    (hms : ∀ lc ∈ lcs, lc.meta.map Prod.fst = ms)
    (hnp : ¬ "n_lc_points" ∈ ms)
    (hnodup : (accKeys ms).Nodup)
    (hacc : st.meta = [] ∨ st.meta.map Prod.fst = accKeys ms)
    (hlen : ∀ p ∈ st.meta, p.2.length = L)
    (hL0 : st.meta = [] → L = 0)
    (hout : dump area season snid st lcs = some out) :
    out.1 = snid + lcs.length ∧
    (∃ es, entriesOf season lcs = some es ∧
      out.2.1.lcEntries = st.lcEntries ++ es) ∧
    (∀ p ∈ out.2.1.meta, p.2.length = L + lcs.length) ∧
    (lcs ≠ [] → out.2.1.meta.map Prod.fst = accKeys ms) ∧
    (∀ lc ∈ lcs, ∀ S : ℤ, ∀ idx : String,
      lookupKey "n_lc_points"
        (dictUpdate (stdMetadict S idx season lc.rows.length area) lc.meta) =
      some (.i lc.rows.length)) := by
  have hacct := dump_accounting area season hnodup lcs snid st L out hms hacc hlen hL0 hout
  have htrace := dump_trace area season lcs snid st out hout
  refine ⟨htrace.2, hacct.1, hacct.2.1, hacct.2.2.1, ?_⟩
  intro lc hlc S idx
  have hnotin : ¬ "n_lc_points" ∈ lc.meta.map Prod.fst := by
    rw [hms lc hlc]
    exact hnp
  rw [lookupKey_dictUpdate_of_not_mem hnotin]
  rfl

/-- Witness for the C10 theorem: flushing one empty and one two-row table
from counter 100 into a fresh accumulator. -/
theorem dump_flush_bookkeeping_witness :
    ∃ out, dump (ρ := Unit) 1 1 100 ⟨[], []⟩ [lcExA, lcExB] = some out ∧
      (out.1 = 100 + ([lcExA, lcExB].length : ℤ) ∧
       (∃ es, entriesOf (ρ := Unit) 1 [lcExA, lcExB] = some es ∧
         out.2.1.lcEntries = ([] : List (String × LCTable Unit)) ++ es) ∧
       (∀ p ∈ out.2.1.meta, p.2.length = 0 + [lcExA, lcExB].length) ∧
       ([lcExA, lcExB] ≠ [] → out.2.1.meta.map Prod.fst = accKeys msEx) ∧
       (∀ lc ∈ [lcExA, lcExB], ∀ S : ℤ, ∀ idx : String,
         lookupKey "n_lc_points"
           (dictUpdate (stdMetadict S idx 1 lc.rows.length 1) lc.meta) =
         some (.i lc.rows.length))) := by
  refine ⟨_, rfl, ?_⟩
  exact dump_flush_bookkeeping (ρ := Unit) 1 1 100 ⟨[], []⟩ [lcExA, lcExB] msEx 0 _
    (by decide) (by decide) (by decide) (Or.inl rfl) (by simp) (fun _ => rfl) rfl
